import Mathlib

/-!
Verification of the graph-mutation and history core of the "mind" diagram
editor: the pure operations in `src/lib/GraphOperations.ts` and the undo/redo
log in `src/lib/HistoryManager.ts`, shallowly embedded as Lean functions over
value-level structures (and, for aliasing questions, over an explicit store
with numeric references standing for JavaScript object identities).
-/

set_option autoImplicit false

namespace Mind

/-- 2D canvas position of a node (`position: { x, y }`). -/
structure Position where
  x : Int
  y : Int
deriving DecidableEq, Repr

/-- The content payload of a node (`NodeData` plus the derived `label` field
that the operations attach: title, color, description, label). -/
structure NodeData where
  title : String
  color : String
  description : String
  label : String
deriving DecidableEq, Repr

/-- A graph node: id, variant tag (`type`), position, content payload. -/
structure Node where
  id : String
  ntype : String
  position : Position
  data : NodeData
deriving DecidableEq, Repr

/-- A directed edge: id, source node id, target node id. -/
structure Edge where
  id : String
  source : String
  target : String
deriving DecidableEq, Repr

/-- A graph snapshot (`GraphState`): node sequence plus edge sequence. -/
structure GraphState where
  nodes : List Node
  edges : List Edge
deriving DecidableEq, Repr

def emptyState : GraphState := { nodes := [], edges := [] }

def emptyData : NodeData := { title := "", color := "", description := "", label := "" }

/-! ## GraphOperations (src/lib/GraphOperations.ts)

`generateNodeId` draws on `crypto.randomUUID()` (or a timestamp fallback), so
operations that call it are parameterised here by the freshly generated id. -/

/-- `GraphOperations.duplicateNode`: spread-copy of the node with a fresh id,
position offset by +50 in both axes, and title/label set to the original
title with a " (Copy)" suffix; the remaining data fields ride along in the
`...node.data` spread. -/
def duplicateNode (newId : String) (node : Node) : Node :=
  { node with
    id := newId
    position := { x := node.position.x + 50, y := node.position.y + 50 }
    data := { node.data with
      title := node.data.title ++ " (Copy)"
      label := node.data.title ++ " (Copy)" } }

/-- `GraphOperations.addNode`: `[...nodes, newNode]`. -/
def addNode (nodes : List Node) (newNode : Node) : List Node :=
  nodes ++ [newNode]

/-- `GraphOperations.removeNode`: `nodes.filter(n => n.id !== nodeId)`. -/
def removeNode (nodes : List Node) (nodeId : String) : List Node :=
  nodes.filter (fun n => n.id != nodeId)

/-- `GraphOperations.removeNodeEdges`:
`edges.filter(e => e.source !== nodeId && e.target !== nodeId)`. -/
def removeNodeEdges (edges : List Edge) (nodeId : String) : List Edge :=
  edges.filter (fun e => e.source != nodeId && e.target != nodeId)

/-- `GraphOperations.updateNodeData`: map over the nodes; the entry matching
the id gets the supplied content with `label` recomputed as
`data.title + (data.description.length > 0 ? "(...)" : "")`. -/
def updateNodeData (nodes : List Node) (nodeId : String) (data : NodeData) : List Node :=
  nodes.map (fun node =>
    if node.id == nodeId then
      { node with
        data := { data with
          label := data.title ++ (if 0 < data.description.length then "(...)" else "") } }
    else node)

/-- `GraphOperations.findNode`: `nodes.find(n => n.id === nodeId)`. -/
def findNode (nodes : List Node) (nodeId : String) : Option Node :=
  nodes.find? (fun n => n.id == nodeId)

/-- `GraphOperations.getNodeIds`: `nodes.map(n => n.id)`. -/
def getNodeIds (nodes : List Node) : List String :=
  nodes.map (fun n => n.id)

/-- `GraphOperations.validateEdges`: every edge's source and target occurs in
the set of node ids. -/
def validateEdges (nodes : List Node) (edges : List Edge) : Bool :=
  let nodeIds := getNodeIds nodes
  edges.all (fun e => nodeIds.contains e.source && nodeIds.contains e.target)

/-! ## HistoryManager (src/lib/HistoryManager.ts)

Value-level embedding: `cloneState` rebuilds the node list with rebuilt data
payloads (`{ ...n, data: { ...n.data } }`) and the edge list with rebuilt
edges (`{ ...e }`); at the level of values this is a structural copy. -/

/-- `HistoryManager.cloneState`, value level: per-node spread copy with a
rebuilt `data` object, per-edge spread copy. -/
def cloneState (state : GraphState) : GraphState :=
  { nodes := state.nodes.map (fun n =>
      { id := n.id, ntype := n.ntype, position := n.position,
        data := { title := n.data.title, color := n.data.color,
                  description := n.data.description, label := n.data.label } }),
    edges := state.edges.map (fun e =>
      { id := e.id, source := e.source, target := e.target }) }

/-- The fields of the `HistoryManager` class: snapshot log, current index,
depth bound. -/
structure HistoryManager where
  history : List GraphState
  currentIndex : Nat
  maxSteps : Nat
deriving DecidableEq, Repr

/-- The `HistoryManager` constructor: single-entry log holding a clone of the
initial state, index 0. -/
def HistoryManager.init (initialState : GraphState) (maxSteps : Nat) : HistoryManager :=
  { history := [cloneState initialState], currentIndex := 0, maxSteps := maxSteps }

/-- `HistoryManager.capture`: slice off the future
(`history.slice(0, currentIndex + 1)`), push a clone of the new state, then
either shift off the oldest entry (when the bound is exceeded) or advance the
index (capped at `maxSteps`). -/
def capture (m : HistoryManager) (state : GraphState) : HistoryManager :=
  if m.maxSteps + 1 < (m.history.take (m.currentIndex + 1) ++ [cloneState state]).length then
    { m with history := (m.history.take (m.currentIndex + 1) ++ [cloneState state]).drop 1 }
  else
    { m with history := m.history.take (m.currentIndex + 1) ++ [cloneState state],
             currentIndex := min (m.currentIndex + 1) m.maxSteps }

/-- `HistoryManager.undo`: null at index 0, else decrement and return a clone
of the entry now at the index. Returns the result together with the updated
manager. -/
def undo (m : HistoryManager) : Option GraphState × HistoryManager :=
  if m.currentIndex = 0 then (none, m)
  else
    (some (cloneState (m.history.getD (m.currentIndex - 1) emptyState)),
     { m with currentIndex := m.currentIndex - 1 })

/-- `HistoryManager.redo`: null at the last entry, else increment and return a
clone of the entry now at the index. -/
def redo (m : HistoryManager) : Option GraphState × HistoryManager :=
  if m.history.length - 1 ≤ m.currentIndex then (none, m)
  else
    (some (cloneState (m.history.getD (m.currentIndex + 1) emptyState)),
     { m with currentIndex := m.currentIndex + 1 })

/-- `HistoryManager.canUndo`: `currentIndex > 0`. -/
def canUndo (m : HistoryManager) : Bool :=
  decide (0 < m.currentIndex)

/-- `HistoryManager.canRedo`: `currentIndex < history.length - 1`. -/
def canRedo (m : HistoryManager) : Bool :=
  decide (m.currentIndex < m.history.length - 1)

/-- `HistoryManager.length`. -/
def HistoryManager.length (m : HistoryManager) : Nat :=
  m.history.length

/-- `HistoryManager.getCurrentIndex`. -/
def getCurrentIndex (m : HistoryManager) : Nat :=
  m.currentIndex

/-- One client-visible history operation. -/
inductive Op where
  | cap (s : GraphState)
  | und
  | red
deriving DecidableEq, Repr

/-- Apply one operation to the manager (discarding undo/redo return values). -/
def applyOp (m : HistoryManager) : Op → HistoryManager
  | Op.cap s => capture m s
  | Op.und => (undo m).2
  | Op.red => (redo m).2

/-- Run a sequence of operations. -/
def run (m : HistoryManager) (ops : List Op) : HistoryManager :=
  ops.foldl applyOp m

/-- The internal well-formedness of a manager: the index is in bounds of a
non-empty log, and the log respects the depth bound. -/
def Inv (m : HistoryManager) : Prop :=
  m.currentIndex < m.history.length ∧ m.history.length ≤ m.maxSteps + 1

/-! ## Reference-semantics model of `cloneState`

`cloneState` is `nodes.map(n => ({ ...n, data: { ...n.data } }))`: the spread
`{ ...n }` copies the `position` field as a reference to the same object,
while `{ ...n.data }` allocates a fresh data object. To reason about aliasing
we model object identity explicitly: positions and data payloads live in a
store and nodes hold numeric references into it. -/

/-- The object store: position objects and data objects, addressed by index;
appending allocates. -/
structure Store where
  posH : List Position
  dataH : List NodeData
deriving DecidableEq, Repr

/-- A node as the heap sees it: scalar fields inline, `position` and `data`
as references into the store. -/
structure NodeRef where
  id : String
  ntype : String
  posRef : Nat
  dataRef : Nat
deriving DecidableEq, Repr

/-- A graph whose nodes carry references (edges hold only scalar fields, so
they stay by value). -/
structure GraphStateRef where
  nodes : List NodeRef
  edges : List Edge
deriving DecidableEq, Repr

def emptyPos : Position := { x := 0, y := 0 }

/-- Read a node's position object through its reference. -/
def readPos (st : Store) (n : NodeRef) : Position :=
  st.posH.getD n.posRef emptyPos

/-- Read a node's data object through its reference. -/
def readData (st : Store) (n : NodeRef) : NodeData :=
  st.dataH.getD n.dataRef emptyData

/-- In-place mutation of a position object (e.g. `node.position.x = v`). -/
def writePos (st : Store) (r : Nat) (p : Position) : Store :=
  { st with posH := st.posH.set r p }

/-- In-place mutation of a data object (e.g. `node.data.title = v`). -/
def writeData (st : Store) (r : Nat) (d : NodeData) : Store :=
  { st with dataH := st.dataH.set r d }

/-- Clone one node list under reference semantics: for each node,
`{ ...n.data }` allocates a fresh data object holding a copy of the current
payload, while `{ ...n }` keeps `posRef` (the position object reference)
unchanged. -/
def cloneNodesRef : Store → List NodeRef → Store × List NodeRef
  | st, [] => (st, [])
  | st, n :: rest =>
    let newRef := st.dataH.length
    let st1 : Store := { st with dataH := st.dataH ++ [st.dataH.getD n.dataRef emptyData] }
    let res := cloneNodesRef st1 rest
    (res.1, { n with dataRef := newRef } :: res.2)

/-- `HistoryManager.cloneState` under reference semantics: clone the nodes as
above; each edge spread `{ ...e }` copies only scalar fields. -/
def cloneStateRef (st : Store) (g : GraphStateRef) : Store × GraphStateRef :=
  ((cloneNodesRef st g.nodes).1,
   { nodes := (cloneNodesRef st g.nodes).2,
     edges := g.edges.map (fun e => { id := e.id, source := e.source, target := e.target }) })

/-! Example values used by counterexamples and witnesses. -/

def exData : NodeData :=
  { title := "Original", color := "#ff0000", description := "Test", label := "Original" }

def exNode : Node :=
  { id := "original", ntype := "colored", position := { x := 100, y := 100 }, data := exData }

def exNodeB : Node :=
  { id := "n2", ntype := "colored", position := { x := 0, y := 0 },
    data := { title := "B", color := "#000000", description := "", label := "B" } }

def exEdge : Edge := { id := "e1-2", source := "original", target := "n2" }

def exState : GraphState := { nodes := [exNode], edges := [exEdge] }

def exStateB : GraphState := { nodes := [exNodeB], edges := [] }

/-- The live graph of the aliasing scenario: one node whose position object
sits at store address 0 and whose data object sits at store address 0. -/
def exLiveNode : NodeRef := { id := "1", ntype := "colored", posRef := 0, dataRef := 0 }

def exStore : Store := { posH := [{ x := 0, y := 0 }], dataH := [exData] }

def exGraphRef : GraphStateRef := { nodes := [exLiveNode], edges := [] }

end Mind

namespace Mind

/-! ## Claims C5–C8 about GraphOperations -/

/-- Claim C5 (counterexample): on a node whose description is non-empty, the
label of the duplicate is NOT the new title followed by the "(...)" suffix
that the description-suffix rule would demand; `duplicateNode` sets the label
to the new title unconditionally. -/
theorem duplicateNode_label_no_suffix :
    ¬ ((duplicateNode "node-9" exNode).data.label
        = exNode.data.title ++ " (Copy)" ++ "(...)") := by
  decide

/-- Claim C5 (amended): `duplicateNode` returns a node whose id is the freshly
generated id (hence differs from the original's whenever the fresh id does),
whose position is offset by +50 in both axes, whose title and label both equal
the original title with " (Copy)" appended — the label is NOT recomputed under
the description-suffix rule — and whose color, description and type equal the
original's verbatim. -/
theorem duplicateNode_spec (newId : String) (n : Node) (h : newId ≠ n.id) :
    (duplicateNode newId n).id ≠ n.id
    ∧ (duplicateNode newId n).id = newId
    ∧ (duplicateNode newId n).position.x = n.position.x + 50
    ∧ (duplicateNode newId n).position.y = n.position.y + 50
    ∧ (duplicateNode newId n).data.title = n.data.title ++ " (Copy)"
    ∧ (duplicateNode newId n).data.label = n.data.title ++ " (Copy)"
    ∧ (duplicateNode newId n).data.color = n.data.color
    ∧ (duplicateNode newId n).data.description = n.data.description
    ∧ (duplicateNode newId n).ntype = n.ntype := by
  refine ⟨h, rfl, rfl, rfl, rfl, rfl, rfl, rfl, rfl⟩

/-- Claim C5 witness: the amended specification evaluated at a concrete node
at position (100,100): the duplicate sits at (150,150), its title ends with
" (Copy)", and the generated-id hypothesis is discharged concretely. -/
theorem duplicateNode_spec_witness :
    "node-9" ≠ exNode.id ∧ (duplicateNode "node-9" exNode).position.x = 150 := by
  refine ⟨by decide, ?_⟩
  have h := duplicateNode_spec "node-9" exNode (by decide)
  simpa [exNode] using h.2.2.1

/-- A non-empty string has positive character count. -/
theorem string_length_pos_of_ne_empty (s : String) (h : s ≠ "") : 0 < s.length := by
  cases s with
  | mk l =>
    cases l with
    | nil => exact absurd rfl h
    | cons a as => simp [String.length]

/-- The updated entry that `updateNodeData` produces for the matching node. -/
theorem updateNodeData_matching (nodes : List Node) (nodeId : String)
    (data : NodeData) (i : Nat) (hi : i < nodes.length)
    (hid : (nodes.getD i exNode).id = nodeId) :
    ((updateNodeData nodes nodeId data).getD i exNode)
      = { nodes.getD i exNode with
          data := { data with
            label := data.title
              ++ (if 0 < data.description.length then "(...)" else "") } } := by
  simp only [updateNodeData, List.getD, List.get?_eq_getElem?,
    List.getElem?_map]
  have h2 : i < (nodes.map (fun node =>
      if node.id == nodeId then
        { node with
          data := { data with
            label := data.title
              ++ (if 0 < data.description.length then "(...)" else "") } }
      else node)).length := by simpa using hi
  rw [List.getElem?_eq_getElem hi]
  simp only [Option.map_some', Option.getD_some]
  have hid' : nodes[i].id = nodeId := by
    simpa [List.getD, List.get?_eq_getElem?, List.getElem?_eq_getElem hi] using hid
  simp [hid']

/-- Claim C6: `updateNodeData` replaces the matching entry's content with the
given data, recomputing the label (title alone when the description is empty,
title ++ "(...)" otherwise) and preserving the node's id, type and position;
non-matching entries are returned unchanged; when no entry matches, the result
equals the input. -/
theorem updateNodeData_spec (nodes : List Node) (nodeId : String) (data : NodeData) :
    (updateNodeData nodes nodeId data).length = nodes.length
    ∧ (∀ i, i < nodes.length →
        ((nodes.getD i exNode).id = nodeId →
          ((updateNodeData nodes nodeId data).getD i exNode).id = (nodes.getD i exNode).id
          ∧ ((updateNodeData nodes nodeId data).getD i exNode).ntype
              = (nodes.getD i exNode).ntype
          ∧ ((updateNodeData nodes nodeId data).getD i exNode).position
              = (nodes.getD i exNode).position
          ∧ ((updateNodeData nodes nodeId data).getD i exNode).data.title = data.title
          ∧ ((updateNodeData nodes nodeId data).getD i exNode).data.color = data.color
          ∧ ((updateNodeData nodes nodeId data).getD i exNode).data.description
              = data.description
          ∧ (data.description = "" →
              ((updateNodeData nodes nodeId data).getD i exNode).data.label = data.title)
          ∧ (data.description ≠ "" →
              ((updateNodeData nodes nodeId data).getD i exNode).data.label
                = data.title ++ "(...)"))
        ∧ ((nodes.getD i exNode).id ≠ nodeId →
            (updateNodeData nodes nodeId data).getD i exNode = nodes.getD i exNode))
    ∧ ((∀ n ∈ nodes, n.id ≠ nodeId) → updateNodeData nodes nodeId data = nodes) := by
  refine ⟨by simp [updateNodeData], ?_, ?_⟩
  · intro i hi
    constructor
    · intro hid
      have hm := updateNodeData_matching nodes nodeId data i hi hid
      rw [hm]
      refine ⟨rfl, rfl, rfl, rfl, rfl, rfl, ?_, ?_⟩
      · intro hd
        simp [hd]
      · intro hd
        have hlen : 0 < data.description.length := string_length_pos_of_ne_empty _ hd
        simp [hlen]
    · intro hid
      simp only [updateNodeData, List.getD, List.get?_eq_getElem?, List.getElem?_map]
      rw [List.getElem?_eq_getElem hi]
      simp only [Option.map_some', Option.getD_some]
      have hid' : nodes[i].id ≠ nodeId := by
        simpa [List.getD, List.get?_eq_getElem?, List.getElem?_eq_getElem hi] using hid
      simp [hid']
  · intro hall
    have : ∀ n ∈ nodes, (fun node =>
        if node.id == nodeId then
          { node with
            data := { data with
              label := data.title
                ++ (if 0 < data.description.length then "(...)" else "") } }
        else node) n = n := by
      intro n hn
      have := hall n hn
      simp [this]
    simpa [updateNodeData] using List.map_congr_left this |>.trans (List.map_id _)

/-- Claim C6 witness: the specification evaluated on a concrete one-node list,
showing the recomputed label with and using the unmatched-id no-op clause. -/
theorem updateNodeData_spec_witness :
    (exNode.id = "original"
      → ((updateNodeData [exNode] "original" exData).getD 0 exNode).data.description
          = exData.description)
    ∧ updateNodeData [exNode] "nope" exData = [exNode] := by
  constructor
  · intro hid
    exact (((updateNodeData_spec [exNode] "original" exData).2.1 0 (by decide)).1
      (by simpa using hid)).2.2.2.2.2.1
  · exact (updateNodeData_spec [exNode] "nope" exData).2.2 (by decide)

/-- Claim C7: after `removeNode`/`removeNodeEdges` with id `nodeId`, no node
in the result carries that id and no edge references it as source or target,
while every node and every edge not referencing the id is retained. -/
theorem removeNode_cascade (nodes : List Node) (edges : List Edge) (nodeId : String) :
    (∀ n ∈ removeNode nodes nodeId, n.id ≠ nodeId)
    ∧ (∀ e ∈ removeNodeEdges edges nodeId, e.source ≠ nodeId ∧ e.target ≠ nodeId)
    ∧ (∀ n ∈ nodes, n.id ≠ nodeId → n ∈ removeNode nodes nodeId)
    ∧ (∀ e ∈ edges, e.source ≠ nodeId → e.target ≠ nodeId →
        e ∈ removeNodeEdges edges nodeId) := by
  refine ⟨?_, ?_, ?_, ?_⟩
  · intro n hn
    have := List.of_mem_filter hn
    simpa using this
  · intro e he
    have := List.of_mem_filter he
    constructor
    · simpa using (Bool.and_elim_left this)
    · simpa using (Bool.and_elim_right this)
  · intro n hn hne
    exact List.mem_filter.2 ⟨hn, by simpa using hne⟩
  · intro e he hs ht
    exact List.mem_filter.2 ⟨he, by simp [hs, ht]⟩

/-- Claim C7 witness: cascading delete on the concrete graph with two nodes
and one edge referencing the deleted node. -/
theorem removeNode_cascade_witness :
    exNodeB ∈ removeNode [exNode, exNodeB] "original"
    ∧ ∀ e ∈ removeNodeEdges [exEdge] "original", e.source ≠ "original" := by
  constructor
  · exact (removeNode_cascade [exNode, exNodeB] [exEdge] "original").2.2.1 exNodeB
      (by simp) (by decide)
  · intro e he
    exact ((removeNode_cascade [exNode, exNodeB] [exEdge] "original").2.1 e he).1

/-- Claim C8: `validateEdges` returns true exactly when every edge's source
and target occur among the node ids, and returns true on an empty edge
sequence for any node sequence. -/
theorem validateEdges_spec (nodes : List Node) (edges : List Edge) :
    (validateEdges nodes edges = true
      ↔ ∀ e ∈ edges, e.source ∈ getNodeIds nodes ∧ e.target ∈ getNodeIds nodes)
    ∧ validateEdges nodes [] = true := by
  constructor
  · simp [validateEdges, List.all_eq_true]
  · simp [validateEdges]

/-- Claim C8 witness: the characterisation applied to a concrete graph whose
single edge references existing node ids. -/
theorem validateEdges_spec_witness :
    validateEdges [exNode, exNodeB] [exEdge] = true :=
  (validateEdges_spec [exNode, exNodeB] [exEdge]).1.2 (by decide)

/-! ## Helper lemmas for the history log -/

/-- At the level of values the per-node/per-edge spread copy is the identity. -/
theorem cloneState_eq (s : GraphState) : cloneState s = s := by
  cases s with
  | mk nodes edges =>
    simp only [cloneState, GraphState.mk.injEq]
    constructor
    · induction nodes with
      | nil => rfl
      | cons n rest ih =>
        cases n with
        | mk i t p dt => cases dt; exact congrArg (List.cons _) ih
    · induction edges with
      | nil => rfl
      | cons e rest ih => cases e; exact congrArg (List.cons _) ih

/-- Reading a snoc list at the length of its prefix yields the appended
element. -/
theorem getD_concat_self {α : Type} (xs : List α) (c d : α) :
    (xs ++ [c]).getD xs.length d = c := by
  induction xs with
  | nil => rfl
  | cons a as ih => exact ih

/-- Reading the tail shifts the position by one. -/
theorem getD_drop_one {α : Type} (l : List α) (i : Nat) (d : α) :
    (l.drop 1).getD i d = l.getD (i + 1) d := by
  cases l with
  | nil => simp [List.getD]
  | cons a as => simp [List.getD]

/-- Full characterisation of `capture` on a well-formed manager: when the
index has reached `maxSteps` the log is trimmed-and-appended with the oldest
entry shifted off and the index untouched; otherwise the log is
trimmed-and-appended and the index advances by exactly one. In both cases the
depth bound field is untouched, the index lands on the last entry, and the
entry at the index is the captured clone. -/
theorem capture_core (m : HistoryManager) (s : GraphState) (h : Inv m) :
    (m.maxSteps ≤ m.currentIndex →
      (capture m s).history
          = (m.history.take (m.currentIndex + 1) ++ [cloneState s]).drop 1
      ∧ (capture m s).currentIndex = m.currentIndex
      ∧ (capture m s).history.length = m.currentIndex + 1)
    ∧ (m.currentIndex < m.maxSteps →
      (capture m s).history = m.history.take (m.currentIndex + 1) ++ [cloneState s]
      ∧ (capture m s).currentIndex = m.currentIndex + 1
      ∧ (capture m s).history.length = m.currentIndex + 2)
    ∧ (capture m s).maxSteps = m.maxSteps
    ∧ (capture m s).currentIndex + 1 = (capture m s).history.length
    ∧ (capture m s).history.getD (capture m s).currentIndex emptyState = cloneState s := by
  have h1 : m.currentIndex < m.history.length := h.1
  have htake : (m.history.take (m.currentIndex + 1)).length = m.currentIndex + 1 := by
    rw [List.length_take]
    omega
  have hpush : (m.history.take (m.currentIndex + 1) ++ [cloneState s]).length
      = m.currentIndex + 2 := by
    simp [htake]
  have hgd : (m.history.take (m.currentIndex + 1) ++ [cloneState s]).getD
      (m.currentIndex + 1) emptyState = cloneState s := by
    have := getD_concat_self (m.history.take (m.currentIndex + 1)) (cloneState s) emptyState
    rwa [htake] at this
  by_cases hc : m.maxSteps ≤ m.currentIndex
  · have hcond : m.maxSteps + 1
        < (m.history.take (m.currentIndex + 1) ++ [cloneState s]).length := by
      omega
    unfold capture
    rw [if_pos hcond]
    refine ⟨fun _ => ⟨rfl, rfl, ?_⟩, fun hlt => absurd hc (by omega), rfl, ?_, ?_⟩
    · simp only [List.length_drop, hpush]
      omega
    · show m.currentIndex + 1
        = ((m.history.take (m.currentIndex + 1) ++ [cloneState s]).drop 1).length
      simp only [List.length_drop, hpush]
      omega
    · show ((m.history.take (m.currentIndex + 1) ++ [cloneState s]).drop 1).getD
        m.currentIndex emptyState = cloneState s
      rw [getD_drop_one]
      exact hgd
  · have hcond : ¬ (m.maxSteps + 1
        < (m.history.take (m.currentIndex + 1) ++ [cloneState s]).length) := by
      omega
    have hmin : min (m.currentIndex + 1) m.maxSteps = m.currentIndex + 1 :=
      Nat.min_eq_left (by omega)
    unfold capture
    rw [if_neg hcond]
    refine ⟨fun hge => absurd hge (by omega), fun _ => ⟨rfl, ?_, hpush⟩, rfl, ?_, ?_⟩
    · exact hmin
    · show min (m.currentIndex + 1) m.maxSteps + 1
        = (m.history.take (m.currentIndex + 1) ++ [cloneState s]).length
      rw [hmin, hpush]
    · show (m.history.take (m.currentIndex + 1) ++ [cloneState s]).getD
        (min (m.currentIndex + 1) m.maxSteps) emptyState = cloneState s
      rw [hmin]
      exact hgd

/-- A fresh manager is well-formed. -/
theorem Inv_init (s : GraphState) (k : Nat) : Inv (HistoryManager.init s k) :=
  ⟨by simp [HistoryManager.init], by simp [HistoryManager.init]⟩

/-- `capture` preserves well-formedness. -/
theorem Inv_capture (m : HistoryManager) (s : GraphState) (h : Inv m) :
    Inv (capture m s) := by
  have hcore := capture_core m s h
  have hms : (capture m s).maxSteps = m.maxSteps := hcore.2.2.1
  by_cases hc : m.maxSteps ≤ m.currentIndex
  · obtain ⟨_, hidx, hlen⟩ := hcore.1 hc
    have h2 := h.2
    have h1 := h.1
    exact ⟨by omega, by omega⟩
  · obtain ⟨_, hidx, hlen⟩ := hcore.2.1 (by omega)
    exact ⟨by omega, by omega⟩

/-- `undo` preserves well-formedness. -/
theorem Inv_undo (m : HistoryManager) (h : Inv m) : Inv (undo m).2 := by
  unfold undo
  by_cases hc : m.currentIndex = 0
  · rw [if_pos hc]
    exact h
  · rw [if_neg hc]
    refine ⟨?_, ?_⟩
    · show m.currentIndex - 1 < m.history.length
      have := h.1
      omega
    · show m.history.length ≤ m.maxSteps + 1
      exact h.2

/-- `redo` preserves well-formedness. -/
theorem Inv_redo (m : HistoryManager) (h : Inv m) : Inv (redo m).2 := by
  unfold redo
  by_cases hc : m.history.length - 1 ≤ m.currentIndex
  · rw [if_pos hc]
    exact h
  · rw [if_neg hc]
    refine ⟨?_, ?_⟩
    · show m.currentIndex + 1 < m.history.length
      omega
    · show m.history.length ≤ m.maxSteps + 1
      exact h.2

/-- Every operation preserves well-formedness. -/
theorem Inv_applyOp (m : HistoryManager) (op : Op) (h : Inv m) : Inv (applyOp m op) := by
  cases op with
  | cap s => exact Inv_capture m s h
  | und => exact Inv_undo m h
  | red => exact Inv_redo m h

/-- Well-formedness is preserved along any run. -/
theorem Inv_run (m : HistoryManager) (ops : List Op) (h : Inv m) : Inv (run m ops) := by
  induction ops generalizing m with
  | nil => exact h
  | cons op rest ih => exact ih (applyOp m op) (Inv_applyOp m op h)

/-- No operation touches the depth bound field. -/
theorem applyOp_maxSteps (m : HistoryManager) (op : Op) :
    (applyOp m op).maxSteps = m.maxSteps := by
  cases op with
  | cap s =>
    show (capture m s).maxSteps = m.maxSteps
    unfold capture
    split <;> rfl
  | und =>
    show (undo m).2.maxSteps = m.maxSteps
    unfold undo
    split <;> rfl
  | red =>
    show (redo m).2.maxSteps = m.maxSteps
    unfold redo
    split <;> rfl

/-- The depth bound is constant along any run. -/
theorem run_maxSteps (m : HistoryManager) (ops : List Op) :
    (run m ops).maxSteps = m.maxSteps := by
  induction ops generalizing m with
  | nil => rfl
  | cons op rest ih => exact (ih (applyOp m op)).trans (applyOp_maxSteps m op)

/-! ## Claims C1–C4, C9, C10 about the history log -/

/-- Claim C1: along every capture/undo/redo sequence from a manager built
with the given bound, the log length stays within maxSteps + 1; a capture
whose trimmed-and-appended log exceeds maxSteps + 1 drops the oldest entry
(position 0) and leaves the index where it was, and otherwise advances the
index by exactly one. -/
theorem capture_bound (s0 : GraphState) (maxSteps : Nat) (ops : List Op) (s : GraphState) :
    HistoryManager.length (run (HistoryManager.init s0 maxSteps) ops) ≤ maxSteps + 1
    ∧ (maxSteps + 1 <
        ((run (HistoryManager.init s0 maxSteps) ops).history.take
            ((run (HistoryManager.init s0 maxSteps) ops).currentIndex + 1)
          ++ [cloneState s]).length →
        (capture (run (HistoryManager.init s0 maxSteps) ops) s).history
          = ((run (HistoryManager.init s0 maxSteps) ops).history.take
              ((run (HistoryManager.init s0 maxSteps) ops).currentIndex + 1)
            ++ [cloneState s]).drop 1
        ∧ (capture (run (HistoryManager.init s0 maxSteps) ops) s).currentIndex
          = (run (HistoryManager.init s0 maxSteps) ops).currentIndex)
    ∧ (((run (HistoryManager.init s0 maxSteps) ops).history.take
            ((run (HistoryManager.init s0 maxSteps) ops).currentIndex + 1)
          ++ [cloneState s]).length ≤ maxSteps + 1 →
        (capture (run (HistoryManager.init s0 maxSteps) ops) s).currentIndex
          = (run (HistoryManager.init s0 maxSteps) ops).currentIndex + 1) := by
  have hInv : Inv (run (HistoryManager.init s0 maxSteps) ops) :=
    Inv_run _ ops (Inv_init s0 maxSteps)
  have hms : (run (HistoryManager.init s0 maxSteps) ops).maxSteps = maxSteps :=
    run_maxSteps _ ops
  set m := run (HistoryManager.init s0 maxSteps) ops with hmdef
  have hcore := capture_core m s hInv
  have h1 := hInv.1
  have h2 := hInv.2
  have htake : (m.history.take (m.currentIndex + 1)).length = m.currentIndex + 1 := by
    rw [List.length_take]
    omega
  have hpush : (m.history.take (m.currentIndex + 1) ++ [cloneState s]).length
      = m.currentIndex + 2 := by
    simp [htake]
  refine ⟨?_, ?_, ?_⟩
  · show m.history.length ≤ maxSteps + 1
    omega
  · intro hcond
    have hge : m.maxSteps ≤ m.currentIndex := by omega
    exact ⟨(hcore.1 hge).1, (hcore.1 hge).2.1⟩
  · intro hcond
    have hlt : m.currentIndex < m.maxSteps := by omega
    exact (hcore.2.1 hlt).2.1

/-- Claim C1 witness: a manager with maxSteps = 0 stays at a single entry,
and a capture that would exceed the bound leaves the index at 0. -/
theorem capture_bound_witness :
    HistoryManager.length (run (HistoryManager.init emptyState 0) []) ≤ 1
    ∧ (capture (run (HistoryManager.init emptyState 0) []) exState).currentIndex
      = (run (HistoryManager.init emptyState 0) []).currentIndex := by
  have h := capture_bound emptyState 0 [] exState
  exact ⟨h.1, (h.2.1 (by decide)).2⟩

/-- Claim C2: after any capture the new log is a suffix of the old log
trimmed at the current index with the fresh clone appended (so every entry
beyond the old index is gone), the entry at the new current index is the
captured state by value, the index points at the last entry, and canRedo is
false. -/
theorem capture_clears_future (s0 : GraphState) (maxSteps : Nat) (ops : List Op)
    (s : GraphState) :
    List.IsSuffix (capture (run (HistoryManager.init s0 maxSteps) ops) s).history
      ((run (HistoryManager.init s0 maxSteps) ops).history.take
          ((run (HistoryManager.init s0 maxSteps) ops).currentIndex + 1)
        ++ [cloneState s])
    ∧ (capture (run (HistoryManager.init s0 maxSteps) ops) s).history.getD
        (capture (run (HistoryManager.init s0 maxSteps) ops) s).currentIndex emptyState = s
    ∧ (capture (run (HistoryManager.init s0 maxSteps) ops) s).currentIndex
      = (capture (run (HistoryManager.init s0 maxSteps) ops) s).history.length - 1
    ∧ canRedo (capture (run (HistoryManager.init s0 maxSteps) ops) s) = false := by
  have hInv : Inv (run (HistoryManager.init s0 maxSteps) ops) :=
    Inv_run _ ops (Inv_init s0 maxSteps)
  set m := run (HistoryManager.init s0 maxSteps) ops with hmdef
  have hcore := capture_core m s hInv
  have hlast := hcore.2.2.2.1
  refine ⟨?_, ?_, ?_, ?_⟩
  · by_cases hc : m.maxSteps ≤ m.currentIndex
    · rw [(hcore.1 hc).1]
      exact List.drop_suffix 1 _
    · rw [(hcore.2.1 (by omega)).1]
  · rw [hcore.2.2.2.2]
    exact cloneState_eq s
  · omega
  · simp only [canRedo, decide_eq_false_iff_not]
    omega

/-- Claim C4: undo at index 0 and redo at the last entry return null and
leave the manager untouched; otherwise the index moves by exactly one, the
log itself is unchanged, and a copy of the entry at the new index is
returned; both operations are total functions. -/
theorem undo_redo_spec (m : HistoryManager) :
    (m.currentIndex = 0 → undo m = (none, m))
    ∧ (0 < m.currentIndex →
        (undo m).1 = some (m.history.getD (m.currentIndex - 1) emptyState)
        ∧ (undo m).2.history = m.history
        ∧ (undo m).2.currentIndex = m.currentIndex - 1
        ∧ (undo m).2.maxSteps = m.maxSteps)
    ∧ (m.currentIndex = m.history.length - 1 → redo m = (none, m))
    ∧ (m.currentIndex < m.history.length - 1 →
        (redo m).1 = some (m.history.getD (m.currentIndex + 1) emptyState)
        ∧ (redo m).2.history = m.history
        ∧ (redo m).2.currentIndex = m.currentIndex + 1
        ∧ (redo m).2.maxSteps = m.maxSteps) := by
  refine ⟨?_, ?_, ?_, ?_⟩
  · intro h0
    unfold undo
    rw [if_pos h0]
  · intro hpos
    unfold undo
    rw [if_neg (by omega)]
    exact ⟨by rw [cloneState_eq], rfl, rfl, rfl⟩
  · intro hlast
    unfold redo
    rw [if_pos (by omega)]
  · intro hlt
    unfold redo
    rw [if_neg (by omega)]
    exact ⟨by rw [cloneState_eq], rfl, rfl, rfl⟩

/-- Claim C4 witness: undo on a fresh manager is a null no-op, and after one
capture undo steps the index back to 0. -/
theorem undo_redo_spec_witness :
    undo (HistoryManager.init exState 2) = (none, HistoryManager.init exState 2)
    ∧ (undo (capture (HistoryManager.init exState 2) exStateB)).2.currentIndex = 0 := by
  constructor
  · exact (undo_redo_spec (HistoryManager.init exState 2)).1 (by decide)
  · exact ((undo_redo_spec (capture (HistoryManager.init exState 2) exStateB)).2.1
      (by decide)).2.2.1

/-- Claim C9: with maxSteps ≥ 1, immediately after a capture the sequence
undo-then-redo succeeds on both steps, redo returns the captured state by
value, and the index is restored to its post-capture position. -/
theorem capture_undo_redo (s0 : GraphState) (maxSteps : Nat) (ops : List Op)
    (s : GraphState) (hK : 1 ≤ maxSteps) :
    (undo (capture (run (HistoryManager.init s0 maxSteps) ops) s)).1 ≠ none
    ∧ (redo (undo (capture (run (HistoryManager.init s0 maxSteps) ops) s)).2).1 = some s
    ∧ (redo (undo (capture (run (HistoryManager.init s0 maxSteps) ops) s)).2).2.currentIndex
      = (capture (run (HistoryManager.init s0 maxSteps) ops) s).currentIndex := by
  have hInv : Inv (run (HistoryManager.init s0 maxSteps) ops) :=
    Inv_run _ ops (Inv_init s0 maxSteps)
  have hms : (run (HistoryManager.init s0 maxSteps) ops).maxSteps = maxSteps :=
    run_maxSteps _ ops
  set m := run (HistoryManager.init s0 maxSteps) ops with hmdef
  have hcore := capture_core m s hInv
  set c := capture m s with hcdef
  have hlen : c.currentIndex + 1 = c.history.length := hcore.2.2.2.1
  have hgd : c.history.getD c.currentIndex emptyState = cloneState s := hcore.2.2.2.2
  have hidx : 1 ≤ c.currentIndex := by
    rcases le_or_lt m.maxSteps m.currentIndex with hge | hlt
    · have h2 := (hcore.1 hge).2.1
      omega
    · have h2 := (hcore.2.1 hlt).2.1
      omega
  have hu1 : (undo c).1
      = some (cloneState (c.history.getD (c.currentIndex - 1) emptyState)) := by
    unfold undo
    rw [if_neg (by omega)]
  have hu2 : (undo c).2 = { c with currentIndex := c.currentIndex - 1 } := by
    unfold undo
    rw [if_neg (by omega)]
  have hguard : ¬ (({ c with currentIndex := c.currentIndex - 1 }
        : HistoryManager).history.length - 1
      ≤ ({ c with currentIndex := c.currentIndex - 1 } : HistoryManager).currentIndex) := by
    show ¬ (c.history.length - 1 ≤ c.currentIndex - 1)
    omega
  have hr1 : (redo { c with currentIndex := c.currentIndex - 1 }).1
      = some (cloneState (c.history.getD (c.currentIndex - 1 + 1) emptyState)) := by
    unfold redo
    rw [if_neg hguard]
  have hr2 : (redo { c with currentIndex := c.currentIndex - 1 }).2
      = { c with currentIndex := c.currentIndex - 1 + 1 } := by
    unfold redo
    rw [if_neg hguard]
  have hadd : c.currentIndex - 1 + 1 = c.currentIndex := by omega
  refine ⟨?_, ?_, ?_⟩
  · rw [hu1]
    simp
  · rw [hu2, hr1, hadd, hgd]
    simp [cloneState_eq]
  · rw [hu2, hr2]
    show c.currentIndex - 1 + 1 = c.currentIndex
    omega

/-- Claim C9 witness: capture on a fresh manager with maxSteps = 1, then
undo-then-redo returns the captured state. -/
theorem capture_undo_redo_witness :
    (1 : Nat) ≤ 1
    ∧ (redo (undo (capture (run (HistoryManager.init emptyState 1) []) exState)).2).1
      = some exState := by
  have h := capture_undo_redo emptyState 1 [] exState (by decide)
  exact ⟨by decide, h.2.1⟩

/-- Claim C10: along every operation sequence the log is never empty and the
current index stays within its bounds, so indexing the log at the current
position is in bounds. -/
theorem log_never_empty (s0 : GraphState) (maxSteps : Nat) (ops : List Op) :
    1 ≤ HistoryManager.length (run (HistoryManager.init s0 maxSteps) ops)
    ∧ getCurrentIndex (run (HistoryManager.init s0 maxSteps) ops)
      ≤ HistoryManager.length (run (HistoryManager.init s0 maxSteps) ops) - 1 := by
  have h1 := (Inv_run _ ops (Inv_init s0 maxSteps)).1
  constructor
  · show 1 ≤ (run (HistoryManager.init s0 maxSteps) ops).history.length
    omega
  · show (run (HistoryManager.init s0 maxSteps) ops).currentIndex
      ≤ (run (HistoryManager.init s0 maxSteps) ops).history.length - 1
    omega

/-- Claim C3 (code bug witness at the failing input): under reference
semantics, `cloneState` keeps the node's position object shared between live
graph and snapshot. After a capture-clone, an in-place write to the live
node's position object is visible through the snapshot node (the snapshot
position reads (99,0) instead of the captured (0,0)); the data payload, which
gets a freshly allocated object, stays isolated from a later content write. -/
theorem cloneState_shares_position :
    readPos (writePos (cloneStateRef exStore exGraphRef).1 exLiveNode.posRef
        { x := 99, y := 0 })
      ((cloneStateRef exStore exGraphRef).2.nodes.getD 0 exLiveNode)
      = { x := 99, y := 0 }
    ∧ readPos exStore exLiveNode = { x := 0, y := 0 }
    ∧ readData (writeData (cloneStateRef exStore exGraphRef).1 exLiveNode.dataRef emptyData)
        ((cloneStateRef exStore exGraphRef).2.nodes.getD 0 exLiveNode)
      = exData := by
  decide

end Mind
